import Mathlib

/-!
Shallow embedding of the audio analysis service
(`src/services/audioService.ts`): per-frame feature extraction, mood
classification with temporal debounce, dominant-frequency estimation,
the subscriber registry and the analysis-loop control flow.

A spectral frame is a `List ℕ` of byte magnitudes (`getByteFrequencyData`
output).  The JavaScript float arithmetic is modelled exactly: values that
stay rational are computed in `ℚ`; `Math.sqrt`, `Math.log` and `Math.exp`
live in `ℝ`.  Division by zero in `ℚ` yields `0`, which makes the same
guards fail as the `NaN` comparisons do in the source (`NaN >= 0.85` is
false, `0 >= 0.85` is false).
-/

/-- The four values of `MoodType`. -/
inductive MoodType where
  | happy
  | energetic
  | calm
  | melancholic
deriving DecidableEq

/-- Normalized amplitude of one bin: `dataArray[i] / 255`. -/
def normVal (m : ℕ) : ℚ := (m : ℚ) / 255

/-- `energy` before gating: `sum / (bufferLength * 255)` in
`extractAudioFeatures`. -/
def rawEnergy (frame : List ℕ) : ℚ :=
  (frame.sum : ℚ) / (frame.length * 255)

/-- `energy` after the noise gate (`Math.max(0, energy - noiseFloor)`) and
the sensitivity step (`Math.min(1, energy * 2.0 * this.sensitivity)`). -/
def energyOf (frame : List ℕ) (noiseFloor sensitivity : ℚ) : ℚ :=
  min 1 (max 0 (rawEnergy frame - noiseFloor) * 2 * sensitivity)

/-- Mean of squared normalized amplitudes (the value under the square root
in the `rms` computation). -/
def rmsSqOf (frame : List ℕ) : ℚ :=
  (frame.map (fun m => normVal m ^ 2)).sum / frame.length

/-- `rms = Math.sqrt(rmsSum / bufferLength)`. -/
noncomputable def rmsOf (frame : List ℕ) : ℝ :=
  Real.sqrt (rmsSqOf frame)

/-- Sign of a raw byte against the 128 threshold:
`dataArray[i] > 128 ? 1 : -1`. -/
def sgnByte (m : ℕ) : Int :=
  if 128 < m then 1 else -1

/-- The zero-crossing counting loop, carrying `prevValue`. -/
def zcrCountAux (prev : Int) : List ℕ → ℕ
  | [] => 0
  | m :: rest => (if sgnByte m ≠ prev then 1 else 0) + zcrCountAux (sgnByte m) rest

/-- Number of sign changes across consecutive bins (the loop starts at
index 1 with `prevValue` taken from bin 0). -/
def zcrCount : List ℕ → ℕ
  | [] => 0
  | m :: rest => zcrCountAux (sgnByte m) rest

/-- `zcr = zcr / bufferLength`. -/
def zcrOf (frame : List ℕ) : ℚ :=
  (zcrCount frame : ℚ) / frame.length

/-- Spectral-centroid numerator `Σ i * amplitude_i`. -/
def centroidNum (frame : List ℕ) : ℚ :=
  (frame.enum.map (fun p => (p.1 : ℚ) * normVal p.2)).sum

/-- Spectral-centroid denominator `Σ amplitude_i`. -/
def centroidDen (frame : List ℕ) : ℚ :=
  (frame.map normVal).sum

/-- `spectralCentroid = denominator === 0 ? 0 : numerator / denominator /
bufferLength`. -/
def spectralCentroidOf (frame : List ℕ) : ℚ :=
  if centroidDen frame = 0 then 0
  else centroidNum frame / centroidDen frame / frame.length

/-- The flatness loop admits a bin when `value > 0.01`. -/
def qualifies (m : ℕ) : Bool :=
  decide ((1 : ℚ) / 100 < normVal m)

/-- The bins that contribute to the spectral-flatness means. -/
def qualifyingBins (frame : List ℕ) : List ℕ :=
  frame.filter qualifies

/-- Accumulated `Math.log(value)` over qualifying bins. -/
noncomputable def logSumOf (frame : List ℕ) : ℝ :=
  ((qualifyingBins frame).map (fun m : ℕ => Real.log ((m : ℝ) / 255))).sum

/-- `geometricMean = nonZeroCount > 0 ? Math.exp(geometricMean /
nonZeroCount) : 0`. -/
noncomputable def geometricMeanOf (frame : List ℕ) : ℝ :=
  if 0 < (qualifyingBins frame).length then
    Real.exp (logSumOf frame / (qualifyingBins frame).length)
  else 0

/-- `arithmeticMean = nonZeroCount > 0 ? arithmeticMean / nonZeroCount :
0` (a sum of rationals, kept in `ℚ`). -/
def arithmeticMeanOf (frame : List ℕ) : ℚ :=
  if 0 < (qualifyingBins frame).length then
    ((qualifyingBins frame).map normVal).sum / (qualifyingBins frame).length
  else 0

/-- `spectralFlatness = arithmeticMean > 0 ? geometricMean /
arithmeticMean : 0`. -/
noncomputable def spectralFlatnessOf (frame : List ℕ) : ℝ :=
  if 0 < arithmeticMeanOf frame then
    geometricMeanOf frame / (arithmeticMeanOf frame : ℝ)
  else 0

/-- The rolloff scan: accumulate raw magnitudes and break at the first bin
where `cumulativeEnergy / totalEnergy >= 0.85`, returning `i /
bufferLength`; the accumulator default `0` survives if the threshold is
never reached. -/
def rolloffAux (total : ℚ) (n : ℕ) : List ℕ → ℕ → ℚ → ℚ
  | [], _, _ => 0
  | m :: rest, i, cum =>
    if (85 : ℚ) / 100 ≤ (cum + m) / total then (i : ℚ) / n
    else rolloffAux total n rest (i + 1) (cum + m)

/-- `spectralRolloff` with `totalEnergy = sum` over the whole frame. -/
def spectralRolloffOf (frame : List ℕ) : ℚ :=
  rolloffAux (frame.sum : ℚ) frame.length frame 0 0

/-- The `AudioFeatures` record published each frame. -/
structure AudioFeatures where
  energy : ℚ
  spectralCentroid : ℚ
  spectralFlatness : ℝ
  spectralRolloff : ℚ
  rms : ℝ
  zcr : ℚ

/-- `extractAudioFeatures(dataArray, bufferLength, noiseFloor)`. -/
noncomputable def extractAudioFeatures (frame : List ℕ)
    (noiseFloor sensitivity : ℚ) : AudioFeatures where
  energy := energyOf frame noiseFloor sensitivity
  spectralCentroid := spectralCentroidOf frame
  spectralFlatness := spectralFlatnessOf frame
  spectralRolloff := spectralRolloffOf frame
  rms := rmsOf frame
  zcr := zcrOf frame

/-- The candidate-mood cascade in `detectMood` (thresholds `0.03`, `0.3`,
`0.2`, `0.15` as exact rationals; `spectralFlatness` is compared in `ℝ`
because it is produced by `exp`/`log`). -/
noncomputable def detectCandidate (f : AudioFeatures)
    (currentMood : MoodType) : MoodType :=
  if f.energy < 3 / 100 then currentMood
  else if 3 / 10 < f.energy ∧ 1 / 5 < f.zcr then .energetic
  else if 1 / 5 < f.energy ∧ 3 / 10 < f.spectralCentroid then .happy
  else if (3 / 20 : ℝ) < f.spectralFlatness ∧ f.energy < 3 / 20 then .melancholic
  else .calm

/-- The debounce threshold actually used by the transition check
(`now - this.moodChangeTime > 100`, milliseconds). -/
def moodChangeThreshold : ℤ := 100

/-- The classifier's persistent state: `currentMood` and
`moodChangeTime`. -/
structure MoodState where
  currentMood : MoodType
  moodChangeTime : ℤ
deriving DecidableEq

/-- One call of `detectMood`: compute the candidate, commit it only when
it differs from the current mood and the elapsed time exceeds the
threshold, and return the (possibly updated) current mood with confidence
1.0. -/
noncomputable def detectMood (f : AudioFeatures) (now : ℤ)
    (st : MoodState) : MoodType × MoodState :=
  let detected := detectCandidate f st.currentMood
  if detected ≠ st.currentMood then
    if moodChangeThreshold < now - st.moodChangeTime then (detected, ⟨detected, now⟩)
    else (st.currentMood, st)
  else (st.currentMood, st)

/-- The peak scan in `calculateDominantFrequency`: keep the first strict
improvement (`dataArray[i] > maxValue`), starting from `maxIndex = 0`,
`maxValue = 0`. -/
def maxScanAux : List ℕ → ℕ → ℕ → ℕ → ℕ
  | [], _, maxIdx, _ => maxIdx
  | m :: rest, i, maxIdx, maxVal =>
    if maxVal < m then maxScanAux rest (i + 1) i m
    else maxScanAux rest (i + 1) maxIdx maxVal

/-- Index of the winning bin of the peak scan. -/
def maxBinIndex (frame : List ℕ) : ℕ :=
  maxScanAux frame 0 0 0

/-- `calculateDominantFrequency`: `0` when no analyzer/frame is available,
otherwise `maxIndex * sampleRate / (fftSize * 2)`. -/
def calculateDominantFrequency (frame : Option (List ℕ))
    (sampleRate fftSize : ℕ) : ℚ :=
  match frame with
  | none => 0
  | some dataArray =>
      ((maxBinIndex dataArray : ℚ) * sampleRate) / (fftSize * 2)

/-- `subscribe` appends the callback to `this.listeners` (callbacks are
identified by reference; here by a tag). -/
def subscribeOf (callback : ℕ) (listeners : List ℕ) : List ℕ :=
  listeners ++ [callback]

/-- The unsubscribe closure: `this.listeners.filter((listener) =>
listener !== callback)`. -/
def unsubscribeOf (callback : ℕ) (listeners : List ℕ) : List ℕ :=
  listeners.filter (fun listener => listener ≠ callback)

/-- `notifyListeners` via `forEach`: call each callback in order; a thrown
exception propagates and aborts the iteration.  The result records the
tags of the callbacks that were invoked with the frame's result, and the
escaped exception if any. -/
def notifyListenersRun {α ε : Type} :
    List (ℕ × (α → Except ε Unit)) → α → List ℕ × Option ε
  | [], _ => ([], none)
  | (i, c) :: rest, r =>
    match c r with
    | Except.ok _ =>
        let out := notifyListenersRun rest r
        (i :: out.1, out.2)
    | Except.error e => ([i], some e)

/-- The unit delivered to subscribers each frame. -/
structure AnalysisResult where
  features : AudioFeatures
  mood : MoodType
  moodConfidence : ℚ
  dominantFrequency : ℚ

/-- The mutable service state the analysis loop reads and writes. -/
structure ServiceState where
  isInitialized : Bool
  sensitivity : ℚ
  mood : MoodState

/-- One activation of `analyzeAudio`: bail out when the session is not
initialized (publishing nothing, touching nothing); otherwise extract
features, run the classifier, and produce the frame's `AnalysisResult`. -/
noncomputable def analyzeAudio (s : ServiceState) (frame : List ℕ)
    (now : ℤ) (noiseFloor : ℚ) (sampleRate fftSize : ℕ) :
    ServiceState × Option AnalysisResult :=
  if s.isInitialized then
    let features := extractAudioFeatures frame noiseFloor s.sensitivity
    let moodResult := detectMood features now s.mood
    ({ s with mood := moodResult.2 },
      some { features := features
             mood := moodResult.1
             moodConfidence := 1
             dominantFrequency :=
               calculateDominantFrequency (some frame) sampleRate fftSize })
  else (s, none)

/-- `stop()`: clears `isInitialized` (resource release is external). -/
def stop (s : ServiceState) : ServiceState :=
  { s with isInitialized := false }

/-! ### Helper lemmas -/

theorem unsubscribeOf_count_of_ne (callback d : ℕ) (l : List ℕ)
    (hd : d ≠ callback) : (unsubscribeOf callback l).count d = l.count d := by
  unfold unsubscribeOf
  exact List.count_filter (by simp [hd])

/-! ### Claims -/

/-- C1: the candidate mood is computed by the five rules in priority
order, first match winning: energy below 0.03 keeps the current mood;
otherwise energy above 0.3 with zcr above 0.2 gives energetic; otherwise
energy above 0.2 with centroid above 0.3 gives happy; otherwise flatness
above 0.15 with energy below 0.15 gives melancholic; otherwise calm. -/
theorem detectCandidate_rules (f : AudioFeatures) (cur : MoodType) :
    (f.energy < 3 / 100 → detectCandidate f cur = cur) ∧
    (¬ f.energy < 3 / 100 → 3 / 10 < f.energy → 1 / 5 < f.zcr →
      detectCandidate f cur = .energetic) ∧
    (¬ f.energy < 3 / 100 → ¬ (3 / 10 < f.energy ∧ 1 / 5 < f.zcr) →
      1 / 5 < f.energy → 3 / 10 < f.spectralCentroid →
      detectCandidate f cur = .happy) ∧
    (¬ f.energy < 3 / 100 → ¬ (3 / 10 < f.energy ∧ 1 / 5 < f.zcr) →
      ¬ (1 / 5 < f.energy ∧ 3 / 10 < f.spectralCentroid) →
      (3 / 20 : ℝ) < f.spectralFlatness → f.energy < 3 / 20 →
      detectCandidate f cur = .melancholic) ∧
    (¬ f.energy < 3 / 100 → ¬ (3 / 10 < f.energy ∧ 1 / 5 < f.zcr) →
      ¬ (1 / 5 < f.energy ∧ 3 / 10 < f.spectralCentroid) →
      ¬ ((3 / 20 : ℝ) < f.spectralFlatness ∧ f.energy < 3 / 20) →
      detectCandidate f cur = .calm) := by
  unfold detectCandidate
  refine ⟨fun h1 => ?_, fun h1 h2a h2b => ?_, fun h1 h2 h3a h3b => ?_,
    fun h1 h2 h3 h4a h4b => ?_, fun h1 h2 h3 h4 => ?_⟩
  · rw [if_pos h1]
  · rw [if_neg h1, if_pos ⟨h2a, h2b⟩]
  · rw [if_neg h1, if_neg h2, if_pos ⟨h3a, h3b⟩]
  · rw [if_neg h1, if_neg h2, if_neg h3, if_pos ⟨h4a, h4b⟩]
  · rw [if_neg h1, if_neg h2, if_neg h3, if_neg h4]

/-- Witness for C1: a frame with energy 0.5 and zcr 0.5 classifies as
energetic through rule 2. -/
theorem detectCandidate_rules_witness :
    detectCandidate ⟨1/2, 0, 0, 0, 0, 1/2⟩ .calm = .energetic :=
  (detectCandidate_rules ⟨1/2, 0, 0, 0, 0, 1/2⟩ .calm).2.1
    (by norm_num) (by norm_num) (by norm_num)

/-- C8: the unsubscribe handle removes exactly its own callback, is
idempotent, and removing twice does not disturb any other subscriber. -/
theorem unsubscribe_idempotent (callback : ℕ) (l : List ℕ) :
    unsubscribeOf callback (unsubscribeOf callback l) = unsubscribeOf callback l ∧
    callback ∉ unsubscribeOf callback l ∧
    (∀ d, d ≠ callback → (unsubscribeOf callback l).count d = l.count d) := by
  refine ⟨?_, ?_, fun d hd => unsubscribeOf_count_of_ne callback d l hd⟩
  · simp [unsubscribeOf, List.filter_filter]
  · simp [unsubscribeOf, List.mem_filter]

/-- Witness for C8 on the registry `[1, 0, 2]`, removing callback `0`. -/
theorem unsubscribe_idempotent_witness :
    unsubscribeOf 0 (unsubscribeOf 0 [1, 0, 2]) = unsubscribeOf 0 [1, 0, 2] ∧
    (0 : ℕ) ∉ unsubscribeOf 0 [1, 0, 2] ∧
    (unsubscribeOf 0 [1, 0, 2]).count 2 = [1, 0, 2].count 2 :=
  ⟨(unsubscribe_idempotent 0 [1, 0, 2]).1,
   (unsubscribe_idempotent 0 [1, 0, 2]).2.1,
   (unsubscribe_idempotent 0 [1, 0, 2]).2.2 2 (by decide)⟩

/-- C4 counterexample: with two subscribers where the first throws, the
`forEach` fan-out invokes only the first; the second never receives the
frame's result, and the exception escapes `notifyListeners`. -/
theorem notifyListeners_throw_counterexample :
    (notifyListenersRun
        [(0, fun _ => Except.error 0), (1, fun _ => Except.ok ())]
        (0 : ℕ)).1 = [0] ∧
    1 ∉ (notifyListenersRun
        [(0, fun _ => Except.error 0), (1, fun _ => Except.ok ())]
        (0 : ℕ)).1 ∧
    (notifyListenersRun
        [(0, fun _ => Except.error 0), (1, fun _ => Except.ok ())]
        (0 : ℕ)).2 = some 0 :=
  ⟨rfl, by decide, rfl⟩

/-- C4 amended: during a single publish, callbacks registered before a
throwing callback receive the frame's result; the throwing callback aborts
the fan-out, so no callback registered after it is invoked, and the
exception propagates out of `notifyListeners`. -/
theorem notifyListeners_throw_aborts {α ε : Type}
    (pre : List (ℕ × (α → Except ε Unit))) (i : ℕ)
    (c : α → Except ε Unit) (post : List (ℕ × (α → Except ε Unit)))
    (r : α) (e : ε)
    (hpre : ∀ p ∈ pre, p.2 r = Except.ok ())
    (hc : c r = Except.error e) :
    notifyListenersRun (pre ++ (i, c) :: post) r =
      (pre.map Prod.fst ++ [i], some e) := by
  induction pre with
  | nil => simp [notifyListenersRun, hc]
  | cons p rest ih =>
    obtain ⟨j, cb⟩ := p
    have hok : cb r = Except.ok () := hpre (j, cb) (by simp)
    simp only [List.cons_append, notifyListenersRun, hok, List.map_cons,
      List.append_eq]
    rw [ih (fun q hq => hpre q (by simp [hq]))]

/-- Witness for C4's amended statement: subscriber 5 receives the frame,
subscriber 7 throws, subscriber 9 is never invoked. -/
theorem notifyListeners_throw_aborts_witness :
    notifyListenersRun
      [((5 : ℕ), fun _ => Except.ok ()), (7, fun _ => Except.error 3),
        (9, fun _ => Except.ok ())] (0 : ℕ) = ([5, 7], some 3) :=
  notifyListeners_throw_aborts
    [((5 : ℕ), fun _ => Except.ok ())] 7 (fun _ => Except.error 3)
    [((9 : ℕ), fun _ => Except.ok ())] 0 3
    (by intro p hp; simp at hp; rw [hp]) rfl

/-- C9: `stop` is idempotent, leaves the session uninitialized, and every
later activation of the analysis loop on a stopped session publishes
nothing and leaves the state untouched. -/
theorem stop_no_further_publish (s : ServiceState) :
    stop (stop s) = stop s ∧ (stop s).isInitialized = false ∧
    (∀ s', s'.isInitialized = false →
      ∀ frame now noiseFloor sampleRate fftSize,
        analyzeAudio s' frame now noiseFloor sampleRate fftSize = (s', none)) := by
  refine ⟨rfl, rfl, fun s' h frame now noiseFloor sampleRate fftSize => ?_⟩
  simp [analyzeAudio, h]

/-- Witness for C9: a concrete stopped session ignores a concrete frame. -/
theorem stop_no_further_publish_witness :
    analyzeAudio (stop ⟨true, 1, ⟨.calm, 0⟩⟩) [200, 0, 0, 0] 5 (3/100) 44100 256 =
      (stop ⟨true, 1, ⟨.calm, 0⟩⟩, none) :=
  (stop_no_further_publish ⟨true, 1, ⟨.calm, 0⟩⟩).2.2
    (stop ⟨true, 1, ⟨.calm, 0⟩⟩) rfl [200, 0, 0, 0] 5 (3/100) 44100 256

/-- C2: when the candidate differs from the current mood, the transition
(current mood set to the candidate, timestamp set to `now`) is committed
iff the elapsed time since the stored timestamp exceeds the debounce
threshold; a second candidate change fired less than the threshold after a
committed one is not committed (state, including the timestamp, is
unchanged); and the stored timestamp is monotonically non-decreasing under
a monotone clock. -/
theorem detectMood_debounce (f f2 : AudioFeatures) (st : MoodState)
    (now t1 t2 : ℤ) :
    (detectCandidate f st.currentMood ≠ st.currentMood →
      ((detectMood f now st).2 =
          ⟨detectCandidate f st.currentMood, now⟩ ↔
        moodChangeThreshold < now - st.moodChangeTime) ∧
      (¬ moodChangeThreshold < now - st.moodChangeTime →
        (detectMood f now st).2 = st ∧
        (detectMood f now st).1 = st.currentMood)) ∧
    (detectCandidate f st.currentMood ≠ st.currentMood →
      moodChangeThreshold < t1 - st.moodChangeTime →
      detectCandidate f2 ((detectMood f t1 st).2).currentMood ≠
        ((detectMood f t1 st).2).currentMood →
      t2 - t1 < moodChangeThreshold →
      (detectMood f2 t2 ((detectMood f t1 st).2)).2 =
        (detectMood f t1 st).2) ∧
    (st.moodChangeTime ≤ now →
      st.moodChangeTime ≤ ((detectMood f now st).2).moodChangeTime) := by
  refine ⟨fun hne => ?_, fun hne1 ht1 hne2 hfast => ?_, fun hle => ?_⟩
  · by_cases ht : moodChangeThreshold < now - st.moodChangeTime
    · constructor
      · simp [detectMood, hne, ht]
      · intro h; exact absurd ht h
    · have hres : (detectMood f now st).2 = st := by
        simp [detectMood, hne, ht]
      constructor
      · rw [hres]
        constructor
        · intro h
          exact absurd (congrArg MoodState.currentMood h).symm hne
        · intro h; exact absurd h ht
      · intro _; exact ⟨hres, by simp [detectMood, hne, ht]⟩
  · have h1 : (detectMood f t1 st).2 =
        ⟨detectCandidate f st.currentMood, t1⟩ := by
      simp [detectMood, hne1, ht1]
    rw [h1] at hne2 ⊢
    simp [detectMood, hne2, lt_asymm hfast]
  · simp only [detectMood]
    split_ifs with h1 h2
    · exact hle
    · exact le_refl _
    · exact le_refl _

/-- Witness for C2: from `calm` at time 0, an energetic frame at `t = 200`
commits; a happy frame at `t = 250` (50 ms later, below the 100 ms
threshold) does not, leaving mood `energetic` and timestamp 200. -/
theorem detectMood_debounce_witness :
    (detectMood ⟨1/4, 1/2, 0, 0, 0, 0⟩ 250
        ((detectMood ⟨1/2, 0, 0, 0, 0, 1/2⟩ 200 ⟨.calm, 0⟩).2)).2 =
      (detectMood ⟨1/2, 0, 0, 0, 0, 1/2⟩ 200 ⟨.calm, 0⟩).2 := by
  have hc1 : detectCandidate ⟨1/2, 0, 0, 0, 0, 1/2⟩ MoodType.calm =
      MoodType.energetic := by
    norm_num [detectCandidate]
  have hc1ne : detectCandidate ⟨1/2, 0, 0, 0, 0, 1/2⟩ MoodType.calm ≠
      MoodType.calm := by rw [hc1]; decide
  have hst : (detectMood ⟨1/2, 0, 0, 0, 0, 1/2⟩ 200
      (⟨.calm, 0⟩ : MoodState)).2 = ⟨MoodType.energetic, 200⟩ := by
    have h := ((detectMood_debounce ⟨1/2, 0, 0, 0, 0, 1/2⟩
        ⟨1/2, 0, 0, 0, 0, 1/2⟩ ⟨.calm, 0⟩ 200 200 200).1 hc1ne).1.mpr
      (by norm_num [moodChangeThreshold])
    rw [show (⟨MoodType.calm, 0⟩ : MoodState).currentMood = MoodType.calm
      from rfl, hc1] at h
    exact h
  have hc2 : detectCandidate ⟨1/4, 1/2, 0, 0, 0, 0⟩ MoodType.energetic =
      MoodType.happy := by
    norm_num [detectCandidate]
  refine (detectMood_debounce ⟨1/2, 0, 0, 0, 0, 1/2⟩ ⟨1/4, 1/2, 0, 0, 0, 0⟩
      ⟨.calm, 0⟩ 0 200 250).2.1 hc1ne
    (by norm_num [moodChangeThreshold]) ?_
    (by norm_num [moodChangeThreshold])
  rw [hst]
  show detectCandidate ⟨1/4, 1/2, 0, 0, 0, 0⟩ MoodType.energetic ≠
    MoodType.energetic
  rw [hc2]; decide

/-- Spec-side energy formula (for the refinement claim C3):
`clamp0..1( max(0, mean(a_i) - noiseFloor) * 2.0 * g )` with
`a_i = m_i / 255`. -/
def specEnergy (frame : List ℕ) (noiseFloor g : ℚ) : ℚ :=
  min 1 (max 0 ((frame.map normVal).sum / frame.length - noiseFloor) * 2 * g)

theorem sum_map_normVal (frame : List ℕ) :
    (frame.map normVal).sum = (frame.sum : ℚ) / 255 := by
  induction frame with
  | nil => simp
  | cons m rest ih =>
    simp only [List.map_cons, List.sum_cons, ih, normVal]
    push_cast
    ring

theorem rawEnergy_eq_mean (frame : List ℕ) :
    rawEnergy frame = (frame.map normVal).sum / frame.length := by
  rw [sum_map_normVal, rawEnergy, div_div]
  ring_nf

/-- C3: the published energy equals
`min(1, max(0, mean(m_i/255) - nf) * 2.0 * g)`; for a frame whose first
half of bins are 255 and the rest 0, with sensitivity 1 and noise floor
0.03, the energy is exactly 0.94. -/
theorem energy_formula (frame : List ℕ) (noiseFloor g : ℚ)
    (hg0 : 0 ≤ g) (hg1 : g ≤ 1) :
    (extractAudioFeatures frame noiseFloor g).energy =
      specEnergy frame noiseFloor g ∧
    (∀ k, 0 < k →
      (extractAudioFeatures (List.replicate k 255 ++ List.replicate k 0)
          (3/100) 1).energy = 94/100) := by
  constructor
  · show energyOf frame noiseFloor g = specEnergy frame noiseFloor g
    unfold energyOf specEnergy
    rw [rawEnergy_eq_mean]
  · intro k hk
    show energyOf (List.replicate k 255 ++ List.replicate k 0) (3/100) 1 =
      94/100
    have hk' : (k : ℚ) ≠ 0 := Nat.cast_ne_zero.mpr hk.ne'
    have hraw : rawEnergy (List.replicate k 255 ++ List.replicate k 0) =
        1/2 := by
      unfold rawEnergy
      have hsum : ((List.replicate k 255 ++ List.replicate k 0).sum : ℚ) =
          255 * k := by
        simp [List.sum_append, List.sum_replicate, smul_eq_mul]
        ring
      have hlen : (((List.replicate k 255 ++ List.replicate k 0).length : ℕ)
          : ℚ) = 2 * k := by
        simp [List.length_append, List.length_replicate]
        push_cast
        ring
      rw [hsum, hlen]
      field_simp
      ring
    unfold energyOf
    rw [hraw]
    norm_num

/-- Witness for C3: the concrete four-bin frame `[255, 255, 0, 0]` with
sensitivity 1 and noise floor 0.03 yields energy 0.94. -/
theorem energy_formula_witness :
    (extractAudioFeatures (List.replicate 2 255 ++ List.replicate 2 0)
        (3/100) 1).energy = 94/100 :=
  (energy_formula [] 0 1 (by norm_num) (by norm_num)).2 2 (by norm_num)

theorem le_foldr_max (l : List ℕ) : ∀ x ∈ l, x ≤ l.foldr max 0 := by
  induction l with
  | nil => intro x hx; cases hx
  | cons a t ih =>
    intro x hx
    rcases List.mem_cons.mp hx with h | h
    · subst h; exact le_max_left _ _
    · exact le_trans (ih x h) (le_max_right _ _)

theorem maxScanAux_skip (l : List ℕ) : ∀ i mi mv,
    l.foldr max 0 ≤ mv → maxScanAux l i mi mv = mi := by
  induction l with
  | nil => intro i mi mv _; rfl
  | cons m t ih =>
    intro i mi mv h
    have hm : m ≤ mv := le_trans (le_max_left m _) h
    have ht : t.foldr max 0 ≤ mv := le_trans (le_max_right m _) h
    show (if mv < m then maxScanAux t (i + 1) i m
      else maxScanAux t (i + 1) mi mv) = mi
    rw [if_neg (not_lt.mpr hm)]
    exact ih (i + 1) mi mv ht

theorem maxScanAux_find (l : List ℕ) : ∀ i mi mv,
    mv < l.foldr max 0 →
    ∃ k, k < l.length ∧ maxScanAux l i mi mv = i + k ∧
      l.getD k 0 = l.foldr max 0 ∧
      ∀ j < k, l.getD j 0 < l.foldr max 0 := by
  induction l with
  | nil => intro i mi mv h; simp at h
  | cons m t ih =>
    intro i mi mv h
    by_cases hm : mv < m
    · by_cases hrest : t.foldr max 0 ≤ m
      · have hM : (m :: t).foldr max 0 = m := max_eq_left hrest
        refine ⟨0, by simp, ?_, by simpa using hM, fun j hj => absurd hj (Nat.not_lt_zero j)⟩
        show (if mv < m then maxScanAux t (i + 1) i m
          else maxScanAux t (i + 1) mi mv) = i + 0
        rw [if_pos hm, maxScanAux_skip t (i + 1) i m hrest]
        omega
      · push_neg at hrest
        have hM : (m :: t).foldr max 0 = t.foldr max 0 :=
          max_eq_right (le_of_lt hrest)
        obtain ⟨k, hk, hres, hget, hlt⟩ := ih (i + 1) i m hrest
        refine ⟨k + 1, by simpa using Nat.succ_lt_succ hk, ?_, ?_, ?_⟩
        · show (if mv < m then maxScanAux t (i + 1) i m
            else maxScanAux t (i + 1) mi mv) = i + (k + 1)
          rw [if_pos hm, hres]
          omega
        · simpa [hM] using hget
        · intro j hj
          cases j with
          | zero => simpa [hM] using hrest
          | succ j' =>
            have := hlt j' (by omega)
            simpa [hM] using this
    · push_neg at hm
      have hrest : mv < t.foldr max 0 := by
        by_contra hc
        push_neg at hc
        exact absurd h (not_lt.mpr (max_le hm hc))
      have hM : (m :: t).foldr max 0 = t.foldr max 0 :=
        max_eq_right (le_trans hm (le_of_lt hrest))
      obtain ⟨k, hk, hres, hget, hlt⟩ := ih (i + 1) mi mv hrest
      refine ⟨k + 1, by simpa using Nat.succ_lt_succ hk, ?_, ?_, ?_⟩
      · show (if mv < m then maxScanAux t (i + 1) i m
          else maxScanAux t (i + 1) mi mv) = i + (k + 1)
        rw [if_neg (not_lt.mpr hm), hres]
        omega
      · simpa [hM] using hget
      · intro j hj
        cases j with
        | zero =>
          show (m :: t).getD 0 0 < (m :: t).foldr max 0
          rw [hM]
          simpa using lt_of_le_of_lt hm hrest
        | succ j' =>
          have := hlt j' (by omega)
          simpa [hM] using this

/-- C6: for a nonempty frame, the winning bin of the peak scan is the
lowest index attaining the maximum magnitude (strictly larger than every
earlier bin), the frequency is `maxBinIndex * sampleRate / (fftSize * 2)`,
and without a frame the estimator returns 0. -/
theorem calculateDominantFrequency_spec (frame : List ℕ)
    (sampleRate fftSize : ℕ) (h : frame ≠ []) :
    maxBinIndex frame < frame.length ∧
    frame.getD (maxBinIndex frame) 0 = frame.foldr max 0 ∧
    (∀ j < maxBinIndex frame, frame.getD j 0 < frame.foldr max 0) ∧
    calculateDominantFrequency (some frame) sampleRate fftSize =
      ((maxBinIndex frame : ℚ) * sampleRate) / (fftSize * 2) ∧
    calculateDominantFrequency none sampleRate fftSize = 0 := by
  by_cases hM : frame.foldr max 0 = 0
  · have h0 : maxBinIndex frame = 0 :=
      maxScanAux_skip frame 0 0 0 (le_of_eq hM)
    refine ⟨?_, ?_, ?_, rfl, rfl⟩
    · rw [h0]
      exact List.length_pos.mpr h
    · rw [h0, hM]
      cases frame with
      | nil => exact absurd rfl h
      | cons a t =>
        have ha : a ≤ (a :: t).foldr max 0 := le_foldr_max _ a (by simp)
        rw [hM] at ha
        simpa using Nat.le_zero.mp ha
    · rw [h0]
      intro j hj
      omega
  · obtain ⟨k, hk, hres, hget, hlt⟩ :=
      maxScanAux_find frame 0 0 0 (Nat.pos_of_ne_zero hM)
    have hidx : maxBinIndex frame = k := by
      rw [maxBinIndex, hres]
      omega
    refine ⟨?_, ?_, ?_, rfl, rfl⟩
    · rw [hidx]; exact hk
    · rw [hidx]; exact hget
    · rw [hidx]; exact hlt

/-- Witness for C6: in the frame `[0, 5, 5, 2]` the tie at magnitude 5 is
broken to bin 1, with the stated frequency formula. -/
theorem calculateDominantFrequency_witness :
    maxBinIndex [0, 5, 5, 2] < ([0, 5, 5, 2] : List ℕ).length ∧
    ([0, 5, 5, 2] : List ℕ).getD (maxBinIndex [0, 5, 5, 2]) 0 =
      ([0, 5, 5, 2] : List ℕ).foldr max 0 ∧
    (∀ j < maxBinIndex [0, 5, 5, 2],
      ([0, 5, 5, 2] : List ℕ).getD j 0 < ([0, 5, 5, 2] : List ℕ).foldr max 0) ∧
    calculateDominantFrequency (some [0, 5, 5, 2]) 44100 256 =
      ((maxBinIndex [0, 5, 5, 2] : ℚ) * 44100) / (256 * 2) ∧
    calculateDominantFrequency none 44100 256 = 0 :=
  calculateDominantFrequency_spec [0, 5, 5, 2] 44100 256 (by simp)

theorem rolloffAux_zero (n : ℕ) (l : List ℕ) : ∀ i cum,
    rolloffAux 0 n l i cum = 0 := by
  induction l with
  | nil => intro i cum; rfl
  | cons m t ih =>
    intro i cum
    show (if (85 : ℚ) / 100 ≤ (cum + m) / 0 then ((i : ℚ)) / n
      else rolloffAux 0 n t (i + 1) (cum + m)) = 0
    rw [div_zero, if_neg (by norm_num)]
    exact ih (i + 1) (cum + m)

theorem rolloffAux_found (total : ℚ) (ht : 0 < total) (n : ℕ)
    (l : List ℕ) : ∀ (i : ℕ) (cum : ℚ),
    cum < 85/100 * total →
    85/100 * total ≤ cum + (l.sum : ℚ) →
    ∃ k, k < l.length ∧
      rolloffAux total n l i cum = ((i + k : ℕ) : ℚ) / n ∧
      85/100 * total ≤ cum + ((l.take (k + 1)).sum : ℚ) ∧
      ∀ j < k, cum + ((l.take (j + 1)).sum : ℚ) < 85/100 * total := by
  induction l with
  | nil =>
    intro i cum hlt hge
    simp only [List.sum_nil, Nat.cast_zero, add_zero] at hge
    exact absurd (lt_of_le_of_lt hge hlt) (lt_irrefl _)
  | cons m t ih =>
    intro i cum hlt hge
    by_cases hc : (85 : ℚ) / 100 ≤ (cum + m) / total
    · have hc' : 85/100 * total ≤ cum + m := (le_div_iff ht).mp hc
      refine ⟨0, by simp, ?_, by simpa using hc', fun j hj => absurd hj (Nat.not_lt_zero j)⟩
      show (if (85 : ℚ) / 100 ≤ (cum + m) / total then ((i : ℚ)) / n
        else rolloffAux total n t (i + 1) (cum + m)) = ((i + 0 : ℕ) : ℚ) / n
      rw [if_pos hc]
      norm_num
    · have hcs : (cum + m) / total < 85/100 := not_le.mp hc
      have hc' : cum + (m : ℚ) < 85/100 * total := (div_lt_iff ht).mp hcs
      have hge' : 85/100 * total ≤ (cum + m) + (t.sum : ℚ) := by
        rw [List.sum_cons, Nat.cast_add] at hge
        linarith
      obtain ⟨k, hk, hres, hreach, hbelow⟩ := ih (i + 1) (cum + m) hc' hge'
      refine ⟨k + 1, by simpa using Nat.succ_lt_succ hk, ?_, ?_, ?_⟩
      · show (if (85 : ℚ) / 100 ≤ (cum + m) / total then ((i : ℚ)) / n
          else rolloffAux total n t (i + 1) (cum + m)) = ((i + (k + 1) : ℕ) : ℚ) / n
        rw [if_neg hc, hres]
        have harith : i + 1 + k = i + (k + 1) := by omega
        rw [harith]
      · rw [List.take_succ_cons, List.sum_cons, Nat.cast_add]
        linarith
      · intro j hj
        cases j with
        | zero =>
          rw [List.take_succ_cons]
          simpa using hc'
        | succ j' =>
          have hb := hbelow j' (by omega)
          rw [List.take_succ_cons, List.sum_cons, Nat.cast_add]
          linarith

/-- C5: the published `spectralRolloff` is `i* / N` for the smallest bin
index `i*` at which the cumulative raw magnitude sum reaches 85% of the
total raw magnitude sum, and it is 0 when the total is 0 (defined value,
no error). -/
theorem spectralRolloff_spec (frame : List ℕ) (noiseFloor g : ℚ) :
    (frame.sum = 0 →
      (extractAudioFeatures frame noiseFloor g).spectralRolloff = 0) ∧
    (frame.sum ≠ 0 →
      ∃ i, i < frame.length ∧
        (extractAudioFeatures frame noiseFloor g).spectralRolloff =
          (i : ℚ) / frame.length ∧
        85/100 * (frame.sum : ℚ) ≤ ((frame.take (i + 1)).sum : ℚ) ∧
        ∀ j < i, ((frame.take (j + 1)).sum : ℚ) < 85/100 * (frame.sum : ℚ)) := by
  constructor
  · intro h
    show spectralRolloffOf frame = 0
    unfold spectralRolloffOf
    rw [h, Nat.cast_zero]
    exact rolloffAux_zero frame.length frame 0 0
  · intro h
    have htot : (0 : ℚ) < (frame.sum : ℚ) := by
      exact_mod_cast Nat.pos_of_ne_zero h
    obtain ⟨k, hk, hres, hreach, hbelow⟩ :=
      rolloffAux_found (frame.sum : ℚ) htot frame.length frame 0 0
        (by linarith) (by linarith)
    refine ⟨k, hk, ?_, by simpa using hreach,
      fun j hj => by simpa using hbelow j hj⟩
    show spectralRolloffOf frame = _
    unfold spectralRolloffOf
    rw [hres]
    norm_num

/-- Witness for C5: the all-zero two-bin frame yields rolloff 0, and in
`[10, 0, 0, 0]` the threshold is reached at bin 0. -/
theorem spectralRolloff_spec_witness :
    (extractAudioFeatures [0, 0] (3/100) 1).spectralRolloff = 0 ∧
    ∃ i, i < ([10, 0, 0, 0] : List ℕ).length ∧
      (extractAudioFeatures [10, 0, 0, 0] (3/100) 1).spectralRolloff =
        (i : ℚ) / ([10, 0, 0, 0] : List ℕ).length ∧
      85/100 * (([10, 0, 0, 0] : List ℕ).sum : ℚ) ≤
        ((([10, 0, 0, 0] : List ℕ).take (i + 1)).sum : ℚ) ∧
      ∀ j < i, ((([10, 0, 0, 0] : List ℕ).take (j + 1)).sum : ℚ) <
        85/100 * (([10, 0, 0, 0] : List ℕ).sum : ℚ) :=
  ⟨(spectralRolloff_spec [0, 0] (3/100) 1).1 (by decide),
   (spectralRolloff_spec [10, 0, 0, 0] (3/100) 1).2 (by decide)⟩

theorem sgnByte_zero : sgnByte 0 = -1 := rfl

theorem zcrCountAux_replicate_zero (k : ℕ) :
    zcrCountAux (-1) (List.replicate k 0) = 0 := by
  induction k with
  | zero => rfl
  | succ n ih =>
    show zcrCountAux (-1) (0 :: List.replicate n 0) = 0
    show (if sgnByte 0 ≠ -1 then 1 else 0) + zcrCountAux (sgnByte 0) (List.replicate n 0) = 0
    rw [sgnByte_zero, if_neg (by simp)]
    simpa using ih

theorem qualifies_zero : qualifies 0 = false := by
  simp [qualifies, normVal]

theorem qualifyingBins_replicate_zero (N : ℕ) :
    qualifyingBins (List.replicate N 0) = [] := by
  unfold qualifyingBins
  rw [List.filter_eq_nil_iff]
  intro a ha
  rw [List.eq_of_mem_replicate ha, qualifies_zero]
  simp

/-- C7: on an all-zero frame all six features are 0 (exercising the
zero-guards in centroid, flatness and rolloff), and `detectMood` reports
the unchanged current mood with unchanged state (the stay rule at
`energy < 0.03`). -/
theorem allZero_frame (N : ℕ) (hN : 0 < N) (g : ℚ) :
    (extractAudioFeatures (List.replicate N 0) (3/100) g).energy = 0 ∧
    (extractAudioFeatures (List.replicate N 0) (3/100) g).rms = 0 ∧
    (extractAudioFeatures (List.replicate N 0) (3/100) g).zcr = 0 ∧
    (extractAudioFeatures (List.replicate N 0) (3/100) g).spectralCentroid = 0 ∧
    (extractAudioFeatures (List.replicate N 0) (3/100) g).spectralFlatness = 0 ∧
    (extractAudioFeatures (List.replicate N 0) (3/100) g).spectralRolloff = 0 ∧
    ∀ (st : MoodState) (now : ℤ),
      detectMood (extractAudioFeatures (List.replicate N 0) (3/100) g) now st =
        (st.currentMood, st) := by
  have henergy : energyOf (List.replicate N 0) (3/100) g = 0 := by
    unfold energyOf rawEnergy
    simp
    rw [show ((0:ℚ) ⊔ -(3/100)) = 0 from max_eq_left (by norm_num),
      zero_mul, zero_mul]
    exact inf_eq_right.mpr (by norm_num)
  have hrms : rmsOf (List.replicate N 0) = 0 := by
    unfold rmsOf rmsSqOf
    simp [normVal]
  have hzcr : zcrOf (List.replicate N 0) = 0 := by
    unfold zcrOf
    obtain ⟨n, rfl⟩ := Nat.exists_eq_succ_of_ne_zero hN.ne'
    show ((zcrCount (0 :: List.replicate n 0) : ℚ)) / _ = 0
    show ((zcrCountAux (sgnByte 0) (List.replicate n 0) : ℚ)) / _ = 0
    rw [sgnByte_zero, zcrCountAux_replicate_zero]
    simp
  have hcent : spectralCentroidOf (List.replicate N 0) = 0 := by
    unfold spectralCentroidOf
    rw [if_pos]
    unfold centroidDen
    simp [normVal]
  have hflat : spectralFlatnessOf (List.replicate N 0) = 0 := by
    unfold spectralFlatnessOf arithmeticMeanOf
    rw [qualifyingBins_replicate_zero]
    simp
  have hroll : spectralRolloffOf (List.replicate N 0) = 0 := by
    unfold spectralRolloffOf
    rw [show (List.replicate N 0).sum = 0 by simp, Nat.cast_zero]
    exact rolloffAux_zero _ _ 0 0
  refine ⟨henergy, hrms, hzcr, hcent, hflat, hroll, fun st now => ?_⟩
  have hcand : detectCandidate
      (extractAudioFeatures (List.replicate N 0) (3/100) g) st.currentMood =
      st.currentMood := by
    unfold detectCandidate
    rw [if_pos]
    show energyOf (List.replicate N 0) (3/100) g < 3 / 100
    rw [henergy]
    norm_num
  simp [detectMood, hcand]

/-- Witness for C7: the three-bin all-zero frame at sensitivity 1 leaves
mood `happy` with timestamp 7 untouched. -/
theorem allZero_frame_witness :
    (extractAudioFeatures (List.replicate 3 0) (3/100) 1).energy = 0 ∧
    detectMood (extractAudioFeatures (List.replicate 3 0) (3/100) 1) 123
      ⟨.happy, 7⟩ = (MoodType.happy, ⟨.happy, 7⟩) := by
  have h := allZero_frame 3 (by norm_num) 1
  exact ⟨h.1, h.2.2.2.2.2.2 ⟨.happy, 7⟩ 123⟩

theorem exp_mean_log_le_mean (l : List ℝ) (hne : l ≠ [])
    (hpos : ∀ x ∈ l, 0 < x) :
    Real.exp ((l.map Real.log).sum / l.length) ≤ l.sum / l.length := by
  have hn : 0 < l.length := List.length_pos.mpr hne
  have hn' : ((l.length : ℝ)) ≠ 0 := Nat.cast_ne_zero.mpr hn.ne'
  have h0 : ∀ i ∈ Finset.univ (α := Fin l.length), 0 ≤ (1 : ℝ) / l.length :=
    fun i _ => by positivity
  have h1 : ∑ _i : Fin l.length, (1 : ℝ) / l.length = 1 := by
    rw [Finset.sum_const, Finset.card_univ, Fintype.card_fin, nsmul_eq_mul]
    field_simp
  have hmem : ∀ i ∈ Finset.univ (α := Fin l.length),
      Real.log (l.get i) ∈ Set.univ := fun i _ => Set.mem_univ _
  have hj := convexOn_exp.map_sum_le h0 h1 hmem
  simp only [smul_eq_mul] at hj
  have hlog : ∀ i : Fin l.length, Real.exp (Real.log (l.get i)) = l.get i :=
    fun i => Real.exp_log (hpos _ (l.get_mem i.1 i.2))
  simp only [hlog] at hj
  have hs1 : ∑ i : Fin l.length, Real.log (l.get i) = (l.map Real.log).sum := by
    rw [← Fin.sum_ofFn]
    congr 1
    rw [show (fun i : Fin l.length => Real.log (l.get i)) =
      Real.log ∘ l.get from rfl, ← List.map_ofFn, List.ofFn_get]
  have hs2 : ∑ i : Fin l.length, l.get i = l.sum := by
    rw [← Fin.sum_ofFn, List.ofFn_get]
  rw [← Finset.mul_sum, ← Finset.mul_sum, hs1, hs2, one_div,
    inv_mul_eq_div, inv_mul_eq_div] at hj
  exact hj

theorem arithmeticMeanOf_len_pos (frame : List ℕ)
    (h : 0 < arithmeticMeanOf frame) : 0 < (qualifyingBins frame).length := by
  by_contra hc
  rw [arithmeticMeanOf, if_neg hc] at h
  exact lt_irrefl 0 h

/-- C10: the published spectral flatness always lies in the unit interval:
the exp-of-mean-of-logs geometric mean never exceeds the arithmetic mean
over the same qualifying bins (AM-GM via Jensen for `exp`), and both
degenerate branches return 0, so flatness can never exceed 1. -/
theorem spectralFlatness_unit_interval (frame : List ℕ)
    (noiseFloor g : ℚ) :
    0 ≤ (extractAudioFeatures frame noiseFloor g).spectralFlatness ∧
    (extractAudioFeatures frame noiseFloor g).spectralFlatness ≤ 1 := by
  show 0 ≤ spectralFlatnessOf frame ∧ spectralFlatnessOf frame ≤ 1
  unfold spectralFlatnessOf
  by_cases hAM : 0 < arithmeticMeanOf frame
  case neg =>
    rw [if_neg hAM]
    norm_num
  rw [if_pos hAM]
  have hlen : 0 < (qualifyingBins frame).length :=
    arithmeticMeanOf_len_pos frame hAM
  have hAMr : (0 : ℝ) < ((arithmeticMeanOf frame : ℚ) : ℝ) := by
    exact_mod_cast hAM
  have hgeo : geometricMeanOf frame =
      Real.exp (logSumOf frame / (qualifyingBins frame).length) := by
    rw [geometricMeanOf, if_pos hlen]
  constructor
  · exact div_nonneg (by rw [hgeo]; exact (Real.exp_pos _).le) hAMr.le
  · rw [div_le_one hAMr, hgeo]
    have hqpos : ∀ m ∈ qualifyingBins frame, (0 : ℝ) < (m : ℝ) / 255 := by
      intro m hm
      have hq : qualifies m = true := (List.mem_filter.mp hm).2
      have h2 : (1 : ℚ) / 100 < normVal m := of_decide_eq_true hq
      have hm0 : 0 < m := by
        by_contra hmc
        push_neg at hmc
        have hz : m = 0 := Nat.le_zero.mp hmc
        subst hz
        norm_num [normVal] at h2
      have hmr : (0 : ℝ) < (m : ℝ) := by exact_mod_cast hm0
      positivity
    have hlpos : ∀ x ∈ (qualifyingBins frame).map (fun m : ℕ => (m : ℝ) / 255),
        0 < x := by
      intro x hx
      obtain ⟨m, hm, rfl⟩ := List.mem_map.mp hx
      exact hqpos m hm
    have hlne : (qualifyingBins frame).map (fun m : ℕ => (m : ℝ) / 255) ≠ [] := by
      intro hcon
      have hcl := congrArg List.length hcon
      rw [List.length_map, List.length_nil] at hcl
      omega
    have key := exp_mean_log_le_mean _ hlne hlpos
    rw [List.length_map] at key
    have hlog : logSumOf frame =
        (((qualifyingBins frame).map (fun m : ℕ => (m : ℝ) / 255)).map
          Real.log).sum := by
      rw [logSumOf, List.map_map]
      rfl
    have hAMeq : ((arithmeticMeanOf frame : ℚ) : ℝ) =
        ((qualifyingBins frame).map (fun m : ℕ => (m : ℝ) / 255)).sum /
          (qualifyingBins frame).length := by
      rw [arithmeticMeanOf, if_pos hlen, Rat.cast_div, Rat.cast_list_sum,
        List.map_map]
      congr 1
      congr 1
      refine List.map_congr_left fun m _ => ?_
      show ((normVal m : ℚ) : ℝ) = (m : ℝ) / 255
      rw [normVal]
      push_cast
      ring
    rw [hlog, hAMeq]
    exact key
